import Mathlib

/-
  Verification of the SM3 hash package (src/sm3.go).

  The streaming layer (`Write`, `Sum`, `Reset`, `checkSum`, `putUint32`,
  `putUint64`, the one-shot `Sum`) is embedded from src/sm3.go.  Machine
  integers are modelled as `Nat` with explicit reduction modulo 2^32 / 2^64
  where the Go code can overflow; byte buffers are `List Nat`, where the
  digest's fixed 64-byte array `x` together with its fill count `nx` is
  represented by the list of its `nx` valid bytes (bytes beyond `nx` are
  never read by the Go code).  The fallible finalizer `checkSum` (it can
  panic) returns an `Option`.
-/

namespace SM3

def pow32 : Nat := 2 ^ 32

def pow64 : Nat := 2 ^ 64

/-- 32-bit left rotation (the rotation count is taken mod 32, matching the
32-bit rotate instruction semantics used by the compression function). -/
def rotl32 (x n : Nat) : Nat :=
  ((x <<< (n % 32)) % pow32) ||| ((x % pow32) >>> (32 - n % 32))

/-- Modelled from the spec: the repository's compression transform `block`
(called by `Write` in src/sm3.go) is not among the provided source files;
its permutation P0 (XOR with left-rotations by 9 and 17) is taken from
spec §4.1. -/
def P0 (x : Nat) : Nat := x ^^^ rotl32 x 9 ^^^ rotl32 x 17

/-- Modelled from the spec: permutation P1 of the missing `block` transform
(XOR with left-rotations by 15 and 23), spec §4.1. -/
def P1 (x : Nat) : Nat := x ^^^ rotl32 x 15 ^^^ rotl32 x 23

/-- Modelled from the spec: the round constants of the missing `block`
transform (one of two fixed 32-bit constants depending on j < 16), spec §4.1
and the SM3 standard it cites. -/
def T (j : Nat) : Nat := if j < 16 then 0x79cc4519 else 0x7a879d8a

/-- Modelled from the spec: boolean function FF of the missing `block`
transform (XOR for j < 16, majority for j ≥ 16), spec §4.1. -/
def FF (j x y z : Nat) : Nat :=
  if j < 16 then x ^^^ y ^^^ z else (x &&& y) ||| (x &&& z) ||| (y &&& z)

/-- Modelled from the spec: boolean function GG of the missing `block`
transform (XOR for j < 16, choice for j ≥ 16), spec §4.1. -/
def GG (j x y z : Nat) : Nat :=
  if j < 16 then x ^^^ y ^^^ z else (x &&& y) ||| ((x ^^^ 0xffffffff) &&& z)

/-- Word `i` of a block, read as a big-endian 32-bit integer from bytes
`4*i .. 4*i+3` (spec §4.1 step 1; bytes are truncated to 8 bits as Go's
`byte` type guarantees). -/
def beWord (b : List Nat) (i : Nat) : Nat :=
  (b.getD (4 * i) 0 % 256) * 16777216 + (b.getD (4 * i + 1) 0 % 256) * 65536 +
    (b.getD (4 * i + 2) 0 % 256) * 256 + b.getD (4 * i + 3) 0 % 256

/-- Modelled from the spec: message expansion of the missing `block`
transform — the 68 words W₀..W₆₇ (spec §4.1 step 1, per the SM3 standard:
Wⱼ = P1(Wⱼ₋₁₆ ^ Wⱼ₋₉ ^ (Wⱼ₋₃ <<< 15)) ^ (Wⱼ₋₁₃ <<< 7) ^ Wⱼ₋₆). -/
def msgW (b : List Nat) : List Nat :=
  let w16 := (List.range 16).map (beWord b)
  (List.range 52).foldl
    (fun w j =>
      w ++ [P1 (w.getD j 0 ^^^ w.getD (j + 7) 0 ^^^ rotl32 (w.getD (j + 13) 0) 15) ^^^
        rotl32 (w.getD (j + 3) 0) 7 ^^^ w.getD (j + 10) 0])
    w16

/-- Modelled from the spec: one compression round of the missing `block`
transform on the register file [a,b,c,d,e,f,g,h] (spec §4.1 step 2). -/
def roundStep (w wp : List Nat) (st : List Nat) (j : Nat) : List Nat :=
  match st with
  | [a, b, c, d, e, f, g, h] =>
      let a12 := rotl32 a 12
      let ss1 := rotl32 ((a12 + e + rotl32 (T j) j) % pow32) 7
      let ss2 := ss1 ^^^ a12
      let tt1 := (FF j a b c + d + ss2 + wp.getD j 0) % pow32
      let tt2 := (GG j e f g + h + ss1 + w.getD j 0) % pow32
      [tt1, a, rotl32 b 9, c, P0 tt2, e, rotl32 f 19, g]
  | st => st

/-- Modelled from the spec: the missing `block` transform's single-block
compression — message expansion, 64 rounds, XOR feed-forward
(spec §4.1 steps 1–3). -/
def compress (h0 : List Nat) (b : List Nat) : List Nat :=
  let w := msgW b
  let wp := (List.range 64).map (fun j => w.getD j 0 ^^^ w.getD (j + 4) 0)
  let st := (List.range 64).foldl (roundStep w wp) h0
  List.zipWith (fun x y => x ^^^ y) h0 st

/-- Auxiliary loop of `blockUpdate`, iterated once per full 64-byte chunk. -/
def blockUpdateAux : Nat → List Nat → List Nat → List Nat
  | 0, h, _ => h
  | k + 1, h, p => blockUpdateAux k (compress h (p.take 64)) (p.drop 64)

/-- Modelled from the spec: the missing `block` function as `Write` calls it —
it consumes its input in 64-byte chunks, applying the compression transform
to each in order (spec §2: "Consumes arbitrary-length writes by splitting
them into complete blocks (fed to the Compression Transform)"). -/
def blockUpdate (h p : List Nat) : List Nat :=
  blockUpdateAux (p.length / 64) h p

/-! From here on everything is embedded from src/sm3.go. -/

def Size : Nat := 32

def BlockSize : Nat := 64

/-- The initialization vector `iv` of src/sm3.go. -/
def iv : List Nat :=
  [0x7380166f, 0x4914b2b9, 0x172442d7, 0xda8a0600,
   0xa96f30bc, 0x163138aa, 0xe38dee4d, 0xb0fb0e4e]

/-- The `digest` struct of src/sm3.go: `h` the 8 state words, `x`/`nx`
(the 64-byte buffer and its fill count) represented as the list of the
`nx` buffered bytes, `len` the running uint64 byte count. -/
structure Digest where
  h : List Nat
  x : List Nat
  len : Nat
deriving DecidableEq

/-- The zero value of Go's `digest` struct (`new(digest)` / `var d digest`). -/
def zeroDigest : Digest := ⟨List.replicate 8 0, [], 0⟩

/-- `Reset` of src/sm3.go: state words back to `iv`, fill count and length
counter to zero. -/
def Reset (_ : Digest) : Digest := ⟨iv, [], 0⟩

/-- `New` of src/sm3.go: a zero digest with `Reset` applied. -/
def New : Digest := Reset zeroDigest

/-- First section of `Write` (src/sm3.go lines 47–55): top up an existing
buffered partial block; if it reaches 64 bytes, run `block` on it and clear
the buffer.  Returns (state words, buffer, remaining input). -/
def writeBuffer (h x p : List Nat) : List Nat × List Nat × List Nat :=
  if 0 < x.length then
    if (x ++ p.take (min (64 - x.length) p.length)).length = 64 then
      (blockUpdate h (x ++ p.take (min (64 - x.length) p.length)), [],
        p.drop (min (64 - x.length) p.length))
    else
      (h, x ++ p.take (min (64 - x.length) p.length),
        p.drop (min (64 - x.length) p.length))
  else (h, x, p)

/-- Second section of `Write` (src/sm3.go lines 57–61): feed the maximal
prefix of whole 64-byte blocks straight to `block`; `len(p) &^ (chunk-1)`
is `(len(p) / 64) * 64`. -/
def writeBlocks (h p : List Nat) : List Nat × List Nat :=
  if 64 ≤ p.length then
    (blockUpdate h (p.take (p.length / 64 * 64)), p.drop (p.length / 64 * 64))
  else (h, p)

/-- Third section of `Write` (src/sm3.go lines 62–64): stash a nonempty
remainder in the buffer (otherwise the buffer is left as it was). -/
def writeTail (x p : List Nat) : List Nat :=
  if 0 < p.length then p else x

/-- `Write` of src/sm3.go: returns the updated digest together with the
returned pair `(nn, err)`; `d.len` is a uint64 and wraps modulo 2^64. -/
def Write (d : Digest) (p : List Nat) : Digest × Nat × Option String :=
  let s1 := writeBuffer d.h d.x p
  let s2 := writeBlocks s1.1 s1.2.2
  (⟨s2.1, writeTail s1.2.1 s2.2, (d.len + p.length) % pow64⟩, p.length, none)

/-- The state component of `Write`. -/
def absorb (d : Digest) (p : List Nat) : Digest := (Write d p).1

/-- `putUint64` of src/sm3.go: the 8-byte big-endian encoding (Go's `byte(v)`
conversion truncates to 8 bits). -/
def putUint64 (s : Nat) : List Nat :=
  [(s >>> 56) % 256, (s >>> 48) % 256, (s >>> 40) % 256, (s >>> 32) % 256,
   (s >>> 24) % 256, (s >>> 16) % 256, (s >>> 8) % 256, s % 256]

/-- `putUint32` of src/sm3.go: the 4-byte big-endian encoding. -/
def putUint32 (s : Nat) : List Nat :=
  [(s >>> 24) % 256, (s >>> 16) % 256, (s >>> 8) % 256, s % 256]

/-- The serialization of the 8 state words at the end of `checkSum`
(src/sm3.go lines 108–117): eight `putUint32` calls in state order. -/
def stateOut (h : List Nat) : List Nat :=
  putUint32 (h.getD 0 0) ++ putUint32 (h.getD 1 0) ++ putUint32 (h.getD 2 0) ++
    putUint32 (h.getD 3 0) ++ putUint32 (h.getD 4 0) ++ putUint32 (h.getD 5 0) ++
    putUint32 (h.getD 6 0) ++ putUint32 (h.getD 7 0)

/-- `checkSum` of src/sm3.go: pad through the ordinary write path, append the
big-endian bit length, then serialize the state.  The `panic("d.nx != 0")`
branch is modelled as `none`. -/
def checkSum (d0 : Digest) : Option (List Nat) :=
  let len := d0.len
  let tmp : List Nat := 0x80 :: List.replicate 63 0
  let d1 :=
    if len % 64 < 56 then absorb d0 (tmp.take (56 - len % 64))
    else absorb d0 (tmp.take (64 + 56 - len % 64))
  let d2 := absorb d1 (putUint64 ((len <<< 3) % pow64))
  if d2.x.length ≠ 0 then none else some (stateOut d2.h)

/-- All bytes `checkSum` feeds through the write path, in order: the padding
slice (`tmp[0 : 56 - len%64]` or `tmp[0 : 64+56 - len%64]`) followed by the
8 length bytes. -/
def checkSumAbsorbed (d : Digest) : List Nat :=
  (if d.len % 64 < 56 then (0x80 :: List.replicate 63 0).take (56 - d.len % 64)
   else (0x80 :: List.replicate 63 0).take (64 + 56 - d.len % 64)) ++
    putUint64 ((d.len <<< 3) % pow64)

/-- The number of zero bytes the finalizer places between the 0x80 marker and
the 8 length bytes, as a function of the byte count `L`. -/
def padZeros (L : Nat) : Nat :=
  if L % 64 < 56 then 55 - L % 64 else 119 - L % 64

/-- The method `Sum` of src/sm3.go: it copies the digest (`d := *d0`),
finalizes the copy, and appends the hash to `b`; the pair returned here is
(the appended result, the receiver's state after the call). -/
def Digest.Sum (d0 : Digest) (b : List Nat) : Option (List Nat) × Digest :=
  ((checkSum d0).map (fun hsh => b ++ hsh), d0)

/-- The package-level one-shot `Sum` of src/sm3.go: a fresh zero digest,
`Reset`, one `Write` of all the data, `checkSum`. -/
def Sum (data : List Nat) : Option (List Nat) :=
  checkSum (absorb (Reset zeroDigest) data)

/-- The method `Size` of src/sm3.go. -/
def DigestSize (_ : Digest) : Nat := Size

/-- The method `BlockSize` of src/sm3.go. -/
def DigestBlockSize (_ : Digest) : Nat := BlockSize

/-! ### Basic facts about the block-chunk loop -/

theorem blockUpdate_nil (h : List Nat) : blockUpdate h [] = h := rfl

theorem blockUpdate_cons64 (h c rest : List Nat) (hc : c.length = 64) :
    blockUpdate h (c ++ rest) = blockUpdate (compress h c) rest := by
  have ht : (c ++ rest).take 64 = c := by
    rw [List.take_append_eq_append_take, hc, List.take_of_length_le (le_of_eq hc)]
    simp
  have hd : (c ++ rest).drop 64 = rest := by
    rw [List.drop_append_eq_append_drop, hc, List.drop_of_length_le (le_of_eq hc)]
    simp
  have hdiv : (c ++ rest).length / 64 = rest.length / 64 + 1 := by
    rw [List.length_append, hc]; omega
  unfold blockUpdate
  rw [hdiv]
  show blockUpdateAux _ (compress h ((c ++ rest).take 64)) ((c ++ rest).drop 64) = _
  rw [ht, hd]

theorem blockUpdate_append (h a b : List Nat) (ha : 64 ∣ a.length) :
    blockUpdate h (a ++ b) = blockUpdate (blockUpdate h a) b := by
  obtain ⟨k, hk⟩ := ha
  induction k generalizing a h with
  | zero =>
      have hnil : a = [] := List.length_eq_zero.mp (by omega)
      subst hnil
      simp [blockUpdate_nil]
  | succ k ih =>
      have h64 : 64 ≤ a.length := by omega
      have hlen : (a.take 64).length = 64 := by rw [List.length_take]; omega
      have hsplit : a = a.take 64 ++ a.drop 64 := (List.take_append_drop 64 a).symm
      rw [hsplit, List.append_assoc, blockUpdate_cons64 _ _ _ hlen,
        blockUpdate_cons64 _ _ _ hlen]
      exact ih (compress h (a.take 64)) (a.drop 64) (by rw [List.length_drop]; omega)

/-! ### Branch analysis of `Write` -/

theorem writeBuffer_empty (h p : List Nat) : writeBuffer h [] p = (h, [], p) := by
  simp [writeBuffer]

theorem writeBuffer_small (h x p : List Nat) (hx0 : 0 < x.length)
    (hsum : x.length + p.length < 64) :
    writeBuffer h x p = (h, x ++ p, []) := by
  have hn : min (64 - x.length) p.length = p.length := by omega
  have htake : p.take (min (64 - x.length) p.length) = p := by
    rw [hn]; exact List.take_length p
  have hdrop : p.drop (min (64 - x.length) p.length) = [] := by
    rw [hn]; exact List.drop_length p
  have hne : ¬ (x ++ p.take (min (64 - x.length) p.length)).length = 64 := by
    rw [htake, List.length_append]; omega
  unfold writeBuffer
  rw [if_pos hx0, if_neg hne, htake, hdrop]

theorem writeBuffer_fill (h x p : List Nat) (hx0 : 0 < x.length) (hx : x.length < 64)
    (hsum : 64 ≤ x.length + p.length) :
    writeBuffer h x p =
      (blockUpdate h (x ++ p.take (64 - x.length)), [], p.drop (64 - x.length)) := by
  have hn : min (64 - x.length) p.length = 64 - x.length := by omega
  have heq : (x ++ p.take (min (64 - x.length) p.length)).length = 64 := by
    rw [List.length_append, List.length_take]; omega
  unfold writeBuffer
  rw [if_pos hx0, if_pos heq, hn]

theorem writeBlocks_eq (h p : List Nat) :
    writeBlocks h p =
      (blockUpdate h (p.take (p.length / 64 * 64)), p.drop (p.length / 64 * 64)) := by
  unfold writeBlocks
  by_cases h64 : 64 ≤ p.length
  · rw [if_pos h64]
  · rw [if_neg h64]
    have h0 : p.length / 64 * 64 = 0 := by omega
    rw [h0]
    simp [blockUpdate_nil]

theorem writeTail_nil_left (l : List Nat) : writeTail [] l = l := by
  cases l <;> simp [writeTail]

theorem writeTail_nil_right (x : List Nat) : writeTail x [] = x := by
  simp [writeTail]

theorem Write_def (d : Digest) (p : List Nat) :
    Write d p =
      (⟨(writeBlocks (writeBuffer d.h d.x p).1 (writeBuffer d.h d.x p).2.2).1,
        writeTail (writeBuffer d.h d.x p).2.1
          (writeBlocks (writeBuffer d.h d.x p).1 (writeBuffer d.h d.x p).2.2).2,
        (d.len + p.length) % pow64⟩, p.length, none) := rfl

/-! ### The closed form of one `Write` -/

theorem absorb_spec (d : Digest) (p : List Nat) (hx : d.x.length < 64) :
    absorb d p =
      ⟨blockUpdate d.h ((d.x ++ p).take ((d.x.length + p.length) / 64 * 64)),
        (d.x ++ p).drop ((d.x.length + p.length) / 64 * 64),
        (d.len + p.length) % pow64⟩ := by
  rcases d with ⟨h, x, len⟩
  simp only at hx
  show (Write ⟨h, x, len⟩ p).1 = _
  rw [Write_def]
  simp only
  by_cases hx0 : 0 < x.length
  · by_cases hsum : x.length + p.length < 64
    · rw [writeBuffer_small h x p hx0 hsum]
      simp only
      rw [writeBlocks_eq]
      simp only
      have h0 : ([] : List Nat).length / 64 * 64 = 0 := by simp
      have hK : (x.length + p.length) / 64 * 64 = 0 := by omega
      rw [h0, hK]
      simp [blockUpdate_nil, writeTail_nil_right]
    · push_neg at hsum
      rw [writeBuffer_fill h x p hx0 hx hsum]
      simp only
      rw [writeBlocks_eq]
      simp only
      rw [writeTail_nil_left]
      have hq : (p.drop (64 - x.length)).length = x.length + p.length - 64 := by
        rw [List.length_drop]; omega
      have hx1len : (x ++ p.take (64 - x.length)).length = 64 := by
        rw [List.length_append, List.length_take]; omega
      have hKK : (x.length + p.length) / 64 * 64 =
          64 + (p.drop (64 - x.length)).length / 64 * 64 := by
        rw [hq]; omega
      have htake64 : (x ++ p).take 64 = x ++ p.take (64 - x.length) := by
        rw [List.take_append_eq_append_take, List.take_of_length_le (by omega)]
      have hdrop64 : (x ++ p).drop 64 = p.drop (64 - x.length) := by
        rw [List.drop_append_eq_append_drop, List.drop_of_length_le (by omega)]
        simp
      simp only [Digest.mk.injEq]
      refine ⟨?_, ?_, trivial⟩
      · rw [hKK, List.take_add, htake64, hdrop64]
        exact (blockUpdate_append h (x ++ p.take (64 - x.length)) _
          (by rw [hx1len])).symm
      · rw [hKK, ← List.drop_drop, hdrop64]
  · have hxe : x = [] := List.length_eq_zero.mp (by omega)
    subst hxe
    rw [writeBuffer_empty]
    simp only
    rw [writeBlocks_eq]
    simp only
    rw [writeTail_nil_left]
    simp

/-! ### Consequences: length bookkeeping and the write-composition law -/

theorem absorb_len (d : Digest) (p : List Nat) :
    (absorb d p).len = (d.len + p.length) % pow64 := by
  rw [absorb, Write_def]

theorem absorb_x_length (d : Digest) (p : List Nat) (hx : d.x.length < 64) :
    (absorb d p).x.length = (d.x.length + p.length) % 64 := by
  rw [absorb_spec d p hx]
  simp only [List.length_drop, List.length_append]
  omega

theorem take_app_of_le (s q : List Nat) (n : Nat) (h1 : n ≤ s.length) :
    (s ++ q).take n = s.take n := by
  rw [List.take_append_eq_append_take, Nat.sub_eq_zero_of_le h1]
  simp

theorem drop_app_of_le (s q : List Nat) (n : Nat) (h1 : n ≤ s.length) :
    (s ++ q).drop n = s.drop n ++ q := by
  rw [List.drop_append_eq_append_drop, Nat.sub_eq_zero_of_le h1]
  simp

theorem absorb_append (d : Digest) (p q : List Nat) (hx : d.x.length < 64) :
    absorb (absorb d p) q = absorb d (p ++ q) := by
  have hx1 : (absorb d p).x.length < 64 := by
    rw [absorb_x_length d p hx]; omega
  rw [absorb_spec (absorb d p) q hx1, absorb_spec d (p ++ q) hx,
    absorb_spec d p hx]
  simp only [List.length_drop, List.length_append]
  have hsq : d.x ++ (p ++ q) = (d.x ++ p) ++ q := (List.append_assoc d.x p q).symm
  have hle : (d.x.length + p.length) / 64 * 64 ≤ (d.x ++ p).length := by
    rw [List.length_append]; omega
  have hK : (d.x.length + (p.length + q.length)) / 64 * 64 =
      (d.x.length + p.length) / 64 * 64 +
        (d.x.length + p.length - (d.x.length + p.length) / 64 * 64 + q.length) /
          64 * 64 := by
    omega
  simp only [Digest.mk.injEq]
  refine ⟨?_, ?_, ?_⟩
  · rw [hsq, hK, List.take_add, take_app_of_le _ _ _ hle, drop_app_of_le _ _ _ hle,
      blockUpdate_append]
    rw [List.length_take, List.length_append]
    omega
  · rw [hsq, hK, ← List.drop_drop, drop_app_of_le _ _ _ hle]
  · show ((d.len + p.length) % pow64 + q.length) % pow64 =
      (d.len + (p.length + q.length)) % pow64
    have hp64 : pow64 = 18446744073709551616 := by norm_num [pow64]
    rw [hp64]
    omega

theorem pow64_lit : pow64 = 18446744073709551616 := by norm_num [pow64]

/-- The invariant of every digest state reachable by writes from a fresh
digest: the buffer holds fewer than 64 bytes, the length counter is a valid
uint64 value, and the buffer fill count equals the length counter mod 64. -/
def Inv (d : Digest) : Prop :=
  d.x.length < 64 ∧ d.len < pow64 ∧ d.len % 64 = d.x.length

theorem Inv_New : Inv New := by
  unfold Inv
  refine ⟨by decide, ?_, by decide⟩
  show (0 : Nat) < pow64
  decide

theorem Inv_absorb (d : Digest) (p : List Nat) (hd : Inv d) : Inv (absorb d p) := by
  obtain ⟨hx, hlen, hmod⟩ := hd
  refine ⟨?_, ?_, ?_⟩
  · rw [absorb_x_length d p hx]; omega
  · rw [absorb_len, pow64_lit]; omega
  · rw [absorb_len, absorb_x_length d p hx, pow64_lit]
    omega

theorem absorb_nil (d : Digest) (hd : Inv d) : absorb d [] = d := by
  obtain ⟨hx, hlen, -⟩ := hd
  rw [absorb_spec d [] hx]
  have hK : d.x.length / 64 * 64 = 0 := by omega
  rcases d with ⟨h, x, len⟩
  simp only at hx hlen hK ⊢
  simp [hK, blockUpdate_nil, Nat.mod_eq_of_lt hlen]

/-- Digest states reachable from a fresh digest by a sequence of writes. -/
def Reachable (d : Digest) : Prop :=
  ∃ chunks : List (List Nat), List.foldl absorb New chunks = d

theorem foldl_absorb (chunks : List (List Nat)) :
    ∀ d : Digest, Inv d → List.foldl absorb d chunks = absorb d chunks.flatten := by
  induction chunks with
  | nil => intro d hd; simpa using (absorb_nil d hd).symm
  | cons c cs ih =>
      intro d hd
      rw [List.foldl_cons, List.flatten_cons, ih (absorb d c) (Inv_absorb d c hd),
        absorb_append d c cs.flatten hd.1]

theorem Inv_foldl (chunks : List (List Nat)) :
    ∀ d : Digest, Inv d → Inv (List.foldl absorb d chunks) := by
  induction chunks with
  | nil => intro d hd; simpa using hd
  | cons c cs ih => intro d hd; rw [List.foldl_cons]; exact ih _ (Inv_absorb d c hd)

theorem reachable_Inv (d : Digest) (hd : Reachable d) : Inv d := by
  obtain ⟨chunks, rfl⟩ := hd
  exact Inv_foldl chunks New Inv_New

/-! ### Finalization -/

theorem putUint64_length (s : Nat) : (putUint64 s).length = 8 := rfl

theorem putUint32_length (s : Nat) : (putUint32 s).length = 4 := rfl

theorem stateOut_length (h : List Nat) : (stateOut h).length = 32 := by
  simp [stateOut, putUint32]

theorem checkSum_absorbed (d : Digest) (hx : d.x.length < 64) :
    checkSum d =
      (fun d2 : Digest => if d2.x.length ≠ 0 then none else some (stateOut d2.h))
        (absorb d (checkSumAbsorbed d)) := by
  simp only [checkSum, checkSumAbsorbed]
  by_cases hr : d.len % 64 < 56
  · rw [if_pos hr, if_pos hr, ← absorb_append d _ _ hx]
  · rw [if_neg hr, if_neg hr, ← absorb_append d _ _ hx]

theorem checkSum_final_empty (d : Digest) (hd : Inv d) :
    (absorb d (checkSumAbsorbed d)).x.length = 0 := by
  obtain ⟨hx, hlen, hmod⟩ := hd
  rw [absorb_x_length d _ hx]
  unfold checkSumAbsorbed
  rw [List.length_append, putUint64_length]
  by_cases hr : d.len % 64 < 56
  · rw [if_pos hr, List.length_take]
    simp only [List.length_cons, List.length_replicate]
    omega
  · rw [if_neg hr, List.length_take]
    simp only [List.length_cons, List.length_replicate]
    omega

theorem checkSum_some (d : Digest) (hd : Inv d) :
    checkSum d = some (stateOut (absorb d (checkSumAbsorbed d)).h) := by
  rw [checkSum_absorbed d hd.1]
  have h0 := checkSum_final_empty d hd
  simp [h0]

theorem checkSum_some_length (d : Digest) (hd : Inv d) :
    ∃ out, checkSum d = some out ∧ out.length = 32 :=
  ⟨_, checkSum_some d hd, stateOut_length _⟩

/-! ### The claims -/

/-- C1: Chunking invariance — writing any partition of a byte sequence
(chunks may be empty) into a fresh digest and then finalizing yields exactly
the one-shot `Sum` of the concatenation, a 32-byte digest. -/
theorem claimC1_chunking_invariance (chunks : List (List Nat)) :
    checkSum (List.foldl absorb New chunks) = Sum chunks.flatten ∧
      ∃ out, Sum chunks.flatten = some out ∧ out.length = 32 := by
  have h1 : List.foldl absorb New chunks = absorb New chunks.flatten :=
    foldl_absorb chunks New Inv_New
  have h2 : Sum chunks.flatten = checkSum (absorb New chunks.flatten) := rfl
  refine ⟨by rw [h1, h2], ?_⟩
  rw [h2]
  exact checkSum_some_length _ (Inv_absorb New _ Inv_New)

/-- C2 (amended): for a digest with byte count L, finalization feeds through
the ordinary write path a single 0x80 byte, then `padZeros L` zero bytes —
55 − L mod 64 of them when L mod 64 < 56 and otherwise 119 − L mod 64, i.e.
the 0x80 together with the zeros spans 56 − L mod 64 resp. 64 + 56 − L mod 64
bytes — then the 8-byte big-endian encoding of the bit length L·8, making the
total padded length a multiple of 64. -/
theorem claimC2_padding (d : Digest) (hx : d.x.length < 64) :
    checkSumAbsorbed d =
      0x80 :: (List.replicate (padZeros d.len) 0 ++ putUint64 ((d.len * 8) % pow64)) ∧
    (d.len + 1 + padZeros d.len + 8) % 64 = 0 ∧
    checkSum d =
      (fun d2 : Digest => if d2.x.length ≠ 0 then none else some (stateOut d2.h))
        (absorb d (checkSumAbsorbed d)) := by
  have hm : d.len % 64 < 64 := Nat.mod_lt _ (by norm_num)
  refine ⟨?_, ?_, checkSum_absorbed d hx⟩
  · unfold checkSumAbsorbed padZeros
    rw [Nat.shiftLeft_eq]
    norm_num
    by_cases hr : d.len % 64 < 56
    · rw [if_pos hr, if_pos hr]
      have h1 : 56 - d.len % 64 = (55 - d.len % 64) + 1 := by omega
      rw [h1, List.take_succ_cons, List.take_replicate]
      have h2 : min (55 - d.len % 64) 63 = 55 - d.len % 64 := by omega
      rw [h2, List.cons_append]
    · rw [if_neg hr, if_neg hr]
      have h1 : 64 + 56 - d.len % 64 = (119 - d.len % 64) + 1 := by omega
      rw [h1, List.take_succ_cons, List.take_replicate]
      have h2 : min (119 - d.len % 64) 63 = 119 - d.len % 64 := by omega
      rw [h2, List.cons_append]
  · unfold padZeros
    by_cases hr : d.len % 64 < 56
    · rw [if_pos hr]; omega
    · rw [if_neg hr]; omega

theorem claimC2_padding_witness :
    checkSumAbsorbed New =
      0x80 :: (List.replicate (padZeros New.len) 0 ++ putUint64 ((New.len * 8) % pow64)) ∧
    (New.len + 1 + padZeros New.len + 8) % 64 = 0 ∧
    checkSum New =
      (fun d2 : Digest => if d2.x.length ≠ 0 then none else some (stateOut d2.h))
        (absorb New (checkSumAbsorbed New)) :=
  claimC2_padding New (by decide)

/-- C2 counterexample: at the fresh digest (L = 0, so L mod 64 < 56) the bytes
the finalizer feeds through the write path are NOT a 0x80 followed by
`56 − L mod 64` zero bytes and the 8 length bytes: the zero-byte count after
the 0x80 is 55, not 56 (the claimed count would make the padded length 65,
not a multiple of 64). -/
theorem claimC2_counterexample :
    checkSumAbsorbed New ≠
      0x80 :: (List.replicate (56 - New.len % 64) 0 ++
        putUint64 ((New.len * 8) % pow64)) := by
  decide

/-- C3: for every reachable digest state, after the finalizer has pushed the
padding and the 8-byte length encoding through the ordinary write path the
buffer fill count is exactly 0, and `checkSum` returns a digest — the
`panic("d.nx != 0")` branch (modelled as `none`) is never taken. -/
theorem claimC3_no_panic (d : Digest) (hd : Reachable d) :
    (absorb d (checkSumAbsorbed d)).x.length = 0 ∧ (checkSum d).isSome = true := by
  have hInv := reachable_Inv d hd
  refine ⟨checkSum_final_empty d hInv, ?_⟩
  rw [checkSum_some d hInv]
  rfl

theorem claimC3_no_panic_witness :
    (absorb New (checkSumAbsorbed New)).x.length = 0 ∧
      (checkSum New).isSome = true :=
  claimC3_no_panic New ⟨[], rfl⟩

/-- C4: the `Sum` method finalizes a copy, leaving the receiver unchanged;
consequently Write(X); Sum; Write(Y); Sum yields the same final digest as
Write(X); Write(Y); Sum on the concatenation. -/
theorem claimC4_sum_nondestructive (X Y b1 b2 : List Nat) (d : Digest) :
    (Digest.Sum d b1).2 = d ∧
      (Digest.Sum (absorb ((Digest.Sum (absorb New X) b1).2) Y) b2).1 =
        (Digest.Sum (absorb New (X ++ Y)) b2).1 := by
  have hN : New.x.length < 64 := by decide
  refine ⟨rfl, ?_⟩
  simp only [Digest.Sum, absorb_append New X Y hN]

/-- C5: `Write` is total — it always reports having accepted the whole input
(`nn = len p`) and a nil error, for every digest state and every input. -/
theorem claimC5_write_total (d : Digest) (p : List Nat) :
    (Write d p).2.1 = p.length ∧ (Write d p).2.2 = none :=
  ⟨rfl, rfl⟩

/-- C6: `Reset` sets the 8 state words to the standard SM3 initialization
vector, empties the buffer, and zeroes the length counter; `New` is exactly a
reset digest, so a fresh object equals any explicitly reset digest. -/
theorem claimC6_reset (d : Digest) :
    Reset d = ⟨[0x7380166f, 0x4914b2b9, 0x172442d7, 0xda8a0600,
        0xa96f30bc, 0x163138aa, 0xe38dee4d, 0xb0fb0e4e], [], 0⟩ ∧
      New = Reset d :=
  ⟨rfl, rfl⟩

/-- C7: `Size` returns 32 and `BlockSize` returns 64 on every digest state,
and finalization produces exactly 32 bytes for every input, including the
empty input. -/
theorem claimC7_sizes (d : Digest) (data : List Nat) :
    DigestSize d = 32 ∧ DigestBlockSize d = 64 ∧
      ∃ out, Sum data = some out ∧ out.length = 32 := by
  refine ⟨rfl, rfl, ?_⟩
  exact checkSum_some_length _ (Inv_absorb _ data Inv_New)

/-- C8: every reachable digest state keeps at most 63 buffered bytes, and a
write increases the length counter by exactly the input length (as a uint64,
i.e. modulo 2^64; exactly whenever no wraparound occurs). -/
theorem claimC8_buffer_invariant (d : Digest) (hd : Reachable d) (p : List Nat) :
    d.x.length ≤ 63 ∧
      (absorb d p).len = (d.len + p.length) % pow64 ∧
      (d.len + p.length < pow64 → (absorb d p).len = d.len + p.length) := by
  have hInv := reachable_Inv d hd
  have hx := hInv.1
  refine ⟨by omega, absorb_len d p, fun h => ?_⟩
  rw [absorb_len]
  exact Nat.mod_eq_of_lt h

theorem claimC8_buffer_invariant_witness :
    New.x.length ≤ 63 ∧ (absorb New [1, 2, 3]).len = 3 :=
  ⟨(claimC8_buffer_invariant New ⟨[], rfl⟩ [1, 2, 3]).1,
    (claimC8_buffer_invariant New ⟨[], rfl⟩ [1, 2, 3]).2.2 (by decide)⟩

/-- C9: determinism — the digest depends on nothing but the input bytes: a
repeated `Sum` call on the same digest object (whose state the first call
left behind) returns the identical result, and finalizing after `Reset` of an
arbitrary digest agrees with the one-shot `Sum` of the same data. -/
theorem claimC9_determinism (d0 dAny : Digest) (b data : List Nat) :
    (Digest.Sum ((Digest.Sum d0 b).2) b).1 = (Digest.Sum d0 b).1 ∧
      checkSum (absorb (Reset dAny) data) = Sum data :=
  ⟨rfl, rfl⟩

/-- C10: the `Sum` method appends — on a reachable digest it returns the
untouched prefix `b` followed by the 32-byte digest, so the result has length
`len b + 32` and its first `len b` bytes are `b`. -/
theorem claimC10_sum_append (d : Digest) (hd : Reachable d) (b : List Nat) :
    ∃ h32 : List Nat, (Digest.Sum d b).1 = some (b ++ h32) ∧ h32.length = 32 ∧
      (b ++ h32).length = b.length + 32 ∧ (b ++ h32).take b.length = b := by
  have hInv := reachable_Inv d hd
  refine ⟨stateOut (absorb d (checkSumAbsorbed d)).h, ?_, stateOut_length _, ?_, ?_⟩
  · simp only [Digest.Sum, checkSum_some d hInv]
    rfl
  · rw [List.length_append, stateOut_length]
  · exact List.take_left ..

theorem claimC10_sum_append_witness :
    ∃ h32 : List Nat, (Digest.Sum New [7]).1 = some ([7] ++ h32) ∧
      h32.length = 32 ∧ ([7] ++ h32).length = [7].length + 32 ∧
      ([7] ++ h32).take [7].length = [7] :=
  claimC10_sum_append New ⟨[], rfl⟩ [7]

end SM3
